import Mathlib

/-
  Verification development for the Cyberspace-Raster dithering engine
  (src/gui/rasterize.py).

  The embedding below translates the algorithmic core of `rasterize.py`
  into Lean:

  * `bayer_step` / `bayerFuel` / `bayerPow` embed `bayer_matrix` (lines
    10-24).  The Python function recurses on `n // 2` with base case
    `n == 1`; `bayerFuel` makes the recursion explicit with a fuel
    parameter over `ℤ` (Python ints), so that non-termination of the
    source recursion is `none` for every fuel.  `bayerPow k` is the value
    of the recursion at `n = 2^k`.  Matrix entries are exact integers in
    the source (stored in float32, but every value is a small integer, so
    `ℤ` is an exact model).
  * `PALETTES` / `lookupPalette` embed the palette table (lines 27-41)
    and Python dict lookup.
  * `RStep` / `rasterize_trace` embed the statement-level control flow of
    `rasterize` (lines 44-128): which stages run, in source order, and
    where the `KeyError` of `PALETTES[palette_name]` (line 95) is raised.
  * `np_tile` / `tile_crop` embed `np.tile(M, (h // n + 1, w // n + 1))`
    followed by the crop `[:h, :w]` (lines 82-83).
  * `gamma`, `shadow_cutoff`, `gray_lin`, `shadow_mask`, `gray_scaled`
    embed the tonal-shaping block (lines 63-76) over `ℝ` (float32
    idealized as reals; `np.power` is the real power `rpow`).
  * `quantize2` embeds the 2-color branch (lines 98-107): per pixel,
    foreground iff `gray_scaled >= tiled` and not shadow.
  * `quantizeN_level` / `paint` / `quantizeN_color` embed the N-color
    branch (lines 109-125): clip to `[0, 0.9999]`, `floor(vals*L +
    tiled)`, clip to `[0, L-1]`, shadows to level 0, then the
    `for idx, color in enumerate(colors): rgb[levels == idx] = color`
    loop over a zero-initialized buffer.  They are generic over a
    `LinearOrderedField` so that the same definitions serve exact
    rational evaluation and the real-valued pipeline.
  * `pixel2` / `rasterize2` compose the whole single-image 2-color
    pipeline on a grayscale buffer (values already normalized to [0,1],
    as after line 61), with `matrix_size = 2^k`.
-/

/-- RGB color triple, 8-bit channels idealized as `ℕ`. -/
abbrev RGB := ℕ × ℕ × ℕ

/-- The palette table of `rasterize.py` lines 27-41, in insertion order.
Each palette is the ordered tuple of colors `(background, foreground, ...)`. -/
def PALETTES : List (String × List RGB) :=
  [ ("VT320", [(23, 8, 0), (255, 154, 16)]),
    ("matrix", [(0, 0, 0), (140, 255, 140)]),
    ("paper", [(255, 244, 210), (0, 0, 0)]),
    ("amber", [(0, 0, 0), (255, 152, 56)]),
    ("c64", [(0, 0, 170), (255, 255, 85)]),
    ("green_phosphor", [(0, 0, 0), (0, 255, 128)]),
    ("dmg", [(0x1b, 0x2a, 0x09), (0x0e, 0x45, 0x0b),
             (0x49, 0x6b, 0x22), (0x9a, 0x9e, 0x3f)]) ]

/-- Python dict lookup `PALETTES[name]`: `none` models the raised `KeyError`. -/
def lookupPalette (name : String) : Option (List RGB) :=
  List.lookup name PALETTES

/-- Default `palette_name` of `rasterize` (line 48). -/
def rasterize_default_palette : String := "vt320"

/-- Default `palette_name` of `process_folder` (line 135). -/
def process_folder_default_palette : String := "vt320"

/-- The stages of `rasterize` (lines 44-128), in source statement order. -/
inductive RStep
  | loadImage        -- line 52: Image.open(...).convert("L")
  | resizeImg        -- lines 55-58: optional resize
  | toGray           -- line 61: np.array(img)/255.0
  | gammaApply       -- line 69: np.power(gray, gamma)
  | shadowCompute    -- line 72: gray_lin < shadow_cutoff
  | rescaleClip      -- lines 75-76: rescale and clip
  | bayerGen         -- line 80: bayer_matrix(matrix_size)
  | normalizeMatrix  -- line 81: (M + 0.5) / (matrix_size * matrix_size)
  | tileMatrix       -- lines 82-83: np.tile + crop
  | maskCompute      -- line 86: gray_scaled >= tiled
  | maskShadowForce  -- line 89: mask[shadows] = False
  | paletteLookup    -- line 95: PALETTES[palette_name]
  | quantizeApply    -- lines 98-125: build rgb buffer (either branch)
  | writeOutput      -- line 128: Image.fromarray(...).save(...)
  deriving DecidableEq

/-- Statement-level control flow of `rasterize`: the list of completed
stages, paired with the outcome.  On an unknown palette name the dict
lookup at line 95 raises `KeyError`: every stage before line 95 has
already run, and no stage after it runs. -/
def rasterize_trace (palette_name : String) (resize : Bool) :
    List RStep × Except String Unit :=
  let pre : List RStep :=
    [RStep.loadImage] ++ (if resize then [RStep.resizeImg] else []) ++
    [RStep.toGray, RStep.gammaApply, RStep.shadowCompute, RStep.rescaleClip,
     RStep.bayerGen, RStep.normalizeMatrix, RStep.tileMatrix,
     RStep.maskCompute, RStep.maskShadowForce]
  match lookupPalette palette_name with
  | none => (pre, Except.error "KeyError")
  | some _ => (pre ++ [RStep.paletteLookup, RStep.quantizeApply, RStep.writeOutput],
               Except.ok ())

/-- One doubling step of `bayer_matrix` (lines 16-24): quadrants
`4*M'`, `4*M'+2`, `4*M'+3`, `4*M'+1`, concatenated along both axes. -/
def bayer_step (m2 : List (List ℤ)) : List (List ℤ) :=
  let tl := m2.map (List.map (fun a => 4 * a))
  let tr := m2.map (List.map (fun a => 4 * a + 2))
  let bl := m2.map (List.map (fun a => 4 * a + 3))
  let br := m2.map (List.map (fun a => 4 * a + 1))
  let top := List.zipWith (· ++ ·) tl tr
  let bottom := List.zipWith (· ++ ·) bl br
  top ++ bottom

/-- Fuel-indexed embedding of `bayer_matrix(n)` (lines 10-24) over Python
integers: base case `n == 1` returns `[[0]]`, otherwise recurse on
`n // 2` (Python floor division = `Int.fdiv`) and assemble quadrants.
`none` means the recursion does not finish within `fuel` calls; the
source recursion diverges exactly when the result is `none` for every
fuel. -/
def bayerFuel : ℕ → ℤ → Option (List (List ℤ))
  | 0, _ => none
  | fuel + 1, n =>
      if n = 1 then some [[0]]
      else (bayerFuel fuel (Int.fdiv n 2)).map bayer_step

/-- Value of `bayer_matrix` at `n = 2^k`: what the source recursion
computes on power-of-two input (see `bayerFuel_pow`). -/
def bayerPow : ℕ → List (List ℤ)
  | 0 => [[0]]
  | k + 1 => bayer_step (bayerPow k)

/-- Entry of a list-of-lists matrix at row `y`, column `x`, with default `d`. -/
def Mget {α : Type} (M : List (List α)) (y x : ℕ) (d : α) : α :=
  (M.getD y []).getD x d

/-- Embedding of `np.tile(M, (a, b))` for a 2-D array: the block
repeated `a` times vertically and `b` times horizontally. -/
def np_tile {α : Type} (M : List (List α)) (a b : ℕ) : List (List α) :=
  List.flatten (List.replicate a (M.map fun row => List.flatten (List.replicate b row)))

/-- Lines 82-83: `np.tile(M, (h // n + 1, w // n + 1))[:h, :w]`. -/
def tile_crop {α : Type} (M : List (List α)) (h w n : ℕ) : List (List α) :=
  ((np_tile M (h / n + 1) (w / n + 1)).take h).map (List.take w)

/-- Line 66: `gamma = 1.1`. -/
noncomputable def gamma : ℝ := 1.1

/-- Line 67: `shadow_cutoff = 0.28`. -/
noncomputable def shadow_cutoff : ℝ := 0.28

/-- Line 69: `gray_lin = np.power(gray, gamma)`, per pixel (real power). -/
noncomputable def gray_lin (g : ℝ) : ℝ := g ^ gamma

/-- Line 72: `shadows = gray_lin < shadow_cutoff`, per pixel. -/
noncomputable def shadow_mask (g : ℝ) : Bool :=
  decide (gray_lin g < shadow_cutoff)

/-- Lines 75-76: rescale to `(gray_lin - c) / (1 - c)` and
`np.clip(·, 0.0, 1.0)` (numpy clip is `min hi (max x lo)`), per pixel. -/
noncomputable def gray_scaled (g : ℝ) : ℝ :=
  min 1 (max ((gray_lin g - shadow_cutoff) / (1 - shadow_cutoff)) 0)

/-- Two-color branch (lines 98-107), per pixel: `mask = gray_scaled >=
tiled`, `mask[shadows] = False`, foreground where the mask holds,
background elsewhere. -/
def quantize2 {α : Type} [LinearOrder α]
    (shaped : α) (shadow : Bool) (t : α) (bg fg : RGB) : RGB :=
  if shadow then bg else if t ≤ shaped then fg else bg

/-- N-color branch, level computation (lines 112-122):
`vals = np.clip(gray_scaled, 0.0, 0.9999)`;
`levels = np.floor(vals * L + tiled).astype(np.int32)`;
`levels = np.clip(levels, 0, L - 1)`; `levels[shadows] = 0`.
(`0.9999` is written `9999 / 10000`; the float result of `np.floor` is
already integral, so `.astype(np.int32)` is the identity on its value.) -/
def quantizeN_level {α : Type} [LinearOrderedField α] [FloorRing α]
    (g : α) (shadow : Bool) (t : α) (L : ℕ) : ℤ :=
  let vals := min (9999 / 10000 : α) (max g 0)
  let lev : ℤ := ⌊vals * (L : α) + t⌋
  let clamped := min ((L : ℤ) - 1) (max lev 0)
  if shadow then 0 else clamped

/-- The loop `for idx, color in enumerate(colors): rgb[levels == idx] =
color` (lines 124-125), per pixel: starting from the zero-initialized
buffer, each enumerated color overwrites the accumulator when its index
equals the pixel's level. -/
def paint (lev : ℤ) : List RGB → ℤ → RGB → RGB
  | [], _, acc => acc
  | c :: rest, idx, acc => paint lev rest (idx + 1) (if lev = idx then c else acc)

/-- N-color branch, per-pixel output color (lines 109-125). -/
def quantizeN_color {α : Type} [LinearOrderedField α] [FloorRing α]
    (g : α) (shadow : Bool) (t : α) (colors : List RGB) : RGB :=
  paint (quantizeN_level g shadow t colors.length) colors 0 (0, 0, 0)

/-- The level formula as the specification words it: `level =
clamp(floor(clamp(shaped_gray, 0, 0.9999) * N + tiled_threshold), 0,
N - 1)`, with `level` forced to `0` for shadow-masked pixels. -/
def level_spec {α : Type} [LinearOrderedField α] [FloorRing α]
    (g t : α) (N : ℕ) (shadow : Bool) : ℤ :=
  let c := min (max g 0) (9999 / 10000 : α)
  let l := min (max (⌊c * (N : α) + t⌋) 0) ((N : ℤ) - 1)
  if shadow then 0 else l

/-- The tonal-shaping rescale as the specification words it:
`shaped = clip((g^gam - c) / (1 - c), 0, 1)`. -/
noncomputable def shape_spec (g gam c : ℝ) : ℝ :=
  min 1 (max ((g ^ gam - c) / (1 - c)) 0)

/-- Per-pixel 2-color pipeline: tonal shaping (lines 63-76) feeding the
2-color quantizer (lines 98-107) at one pixel with tiled threshold `t`. -/
noncomputable def pixel2 (g t : ℝ) (bg fg : RGB) : RGB :=
  quantize2 (gray_scaled g) (shadow_mask g) t bg fg

/-- Per-pixel N-color pipeline: tonal shaping feeding the N-color
quantizer (lines 109-125) at one pixel with tiled threshold `t`. -/
noncomputable def pixelN (g t : ℝ) (colors : List RGB) : RGB :=
  quantizeN_color (gray_scaled g) (shadow_mask g) t colors

/-- The single-image 2-color pipeline of `rasterize` on a normalized
grayscale buffer (values in [0,1], as produced at line 61), with
`matrix_size = 2^k`: generate the Bayer matrix, normalize it by
`(M + 0.5) / (matrix_size * matrix_size)` (line 81), tile and crop
(lines 82-83), then map each pixel through shaping and the 2-color
quantizer. -/
noncomputable def rasterize2 (gray : List (List ℝ)) (k : ℕ) (bg fg : RGB) :
    List (List RGB) :=
  let n : ℕ := 2 ^ k
  let Mn : List (List ℝ) :=
    (bayerPow k).map (List.map (fun v : ℤ => ((v : ℝ) + 0.5) / ((n : ℝ) * n)))
  let h := gray.length
  let w := (gray.headD []).length
  let tiled := tile_crop Mn h w n
  List.zipWith
    (fun grow trow => List.zipWith (fun g t => pixel2 g t bg fg) grow trow)
    gray tiled

/- ### List indexing and counting toolkit -/

theorem getD_append_lt {α : Type} (A B : List α) (i : ℕ) (d : α)
    (h : i < A.length) : (A ++ B).getD i d = A.getD i d := by
  induction A generalizing i with
  | nil => simp at h
  | cons a A ih =>
    cases i with
    | zero => rfl
    | succ i => simpa using ih i (by simpa using h)

theorem getD_append_ge {α : Type} (A B : List α) (i : ℕ) (d : α)
    (h : A.length ≤ i) : (A ++ B).getD i d = B.getD (i - A.length) d := by
  induction A generalizing i with
  | nil => simp
  | cons a A ih =>
    cases i with
    | zero => simp at h
    | succ i => simpa using ih i (by simpa using h)

theorem getD_map_lt {α β : Type} (f : α → β) (l : List α) (i : ℕ)
    (h : i < l.length) (d : β) (d' : α) :
    (l.map f).getD i d = f (l.getD i d') := by
  induction l generalizing i with
  | nil => simp at h
  | cons a l ih =>
    cases i with
    | zero => rfl
    | succ i => simpa using ih i (by simpa using h)

theorem getD_zipWith_lt {α β γ : Type} (f : α → β → γ) (A : List α)
    (B : List β) (i : ℕ) (hA : i < A.length) (hB : i < B.length)
    (d : γ) (da : α) (db : β) :
    (List.zipWith f A B).getD i d = f (A.getD i da) (B.getD i db) := by
  induction A generalizing B i with
  | nil => simp at hA
  | cons a A ih =>
    cases B with
    | nil => simp at hB
    | cons b B =>
      cases i with
      | zero => rfl
      | succ i => simpa using ih B i (by simpa using hA) (by simpa using hB)

theorem getD_take_lt {α : Type} (l : List α) (n i : ℕ) (d : α)
    (h : i < n) : (l.take n).getD i d = l.getD i d := by
  induction l generalizing n i with
  | nil => simp
  | cons a l ih =>
    cases n with
    | zero => omega
    | succ n =>
      cases i with
      | zero => rfl
      | succ i => simpa using ih n i (by omega)

theorem getD_mem {α : Type} (l : List α) (i : ℕ) (d : α)
    (h : i < l.length) : l.getD i d ∈ l := by
  rw [List.getD_eq_getElem l d h]
  exact List.getElem_mem h

theorem length_flatten_replicate {α : Type} (a : ℕ) (L : List α) :
    (List.flatten (List.replicate a L)).length = a * L.length := by
  induction a with
  | zero => simp
  | succ a ih =>
    rw [List.replicate_succ, List.flatten_cons, List.length_append, ih]
    ring

theorem getD_flatten_replicate {α : Type} (a : ℕ) (L : List α) (i : ℕ)
    (d : α) (h : i < a * L.length) :
    (List.flatten (List.replicate a L)).getD i d = L.getD (i % L.length) d := by
  induction a generalizing i with
  | zero => omega
  | succ a ih =>
    rw [List.replicate_succ, List.flatten_cons]
    rcases lt_or_le i L.length with hi | hi
    · rw [getD_append_lt _ _ _ _ hi, Nat.mod_eq_of_lt hi]
    · have hstep : (a + 1) * L.length = a * L.length + L.length := by ring
      rw [getD_append_ge _ _ _ _ hi, ih _ (by omega),
        Nat.mod_eq_sub_mod hi]

theorem mem_flatten_replicate {α : Type} {x : α} {a : ℕ} {L : List α}
    (h : x ∈ List.flatten (List.replicate a L)) : x ∈ L := by
  rcases List.mem_flatten.mp h with ⟨l, hl, hx⟩
  rwa [List.eq_of_mem_replicate hl] at hx

theorem zipWith_replicate_left {α β γ : Type} (f : α → β → γ) (a : α)
    (n : ℕ) (l : List β) :
    List.zipWith f (List.replicate n a) l = (l.take n).map (f a) := by
  induction n generalizing l with
  | zero => simp
  | succ n ih =>
    cases l with
    | nil => simp
    | cons b l => simp [List.replicate_succ, ih]

theorem mem_zipWith {α β γ : Type} {f : α → β → γ} :
    ∀ {A : List α} {B : List β} {c : γ}, c ∈ List.zipWith f A B →
      ∃ a ∈ A, ∃ b ∈ B, c = f a b
  | [], _, _, h => by simp at h
  | _ :: _, [], _, h => by simp at h
  | a :: A, b :: B, c, h => by
    rcases List.mem_cons.mp h with h | h
    · exact ⟨a, List.mem_cons_self a A, b, List.mem_cons_self b B, h⟩
    · rcases mem_zipWith h with ⟨a', ha, b', hb, rfl⟩
      exact ⟨a', List.mem_cons_of_mem _ ha, b', List.mem_cons_of_mem _ hb, rfl⟩

theorem count_flatten_zipWith_append {α : Type} [DecidableEq α] (v : α) :
    ∀ (A B : List (List α)), A.length = B.length →
      (List.flatten (List.zipWith (· ++ ·) A B)).count v =
        A.flatten.count v + B.flatten.count v := by
  intro A
  induction A with
  | nil =>
    intro B h
    cases B with
    | nil => simp
    | cons b B => simp at h
  | cons a A ih =>
    intro B h
    cases B with
    | nil => simp at h
    | cons b B =>
      have ihB := ih B (by simpa using h)
      simp only [List.zipWith_cons_cons, List.flatten_cons, List.count_append]
      omega

theorem flatten_map_map {α β : Type} (f : α → β) (L : List (List α)) :
    (L.map (List.map f)).flatten = L.flatten.map f := by
  induction L with
  | nil => simp
  | cons l L ih =>
    rw [List.map_cons, List.flatten_cons, List.flatten_cons, List.map_append, ih]

/- ### Bayer matrix lemmas -/

theorem bayer_step_length (M : List (List ℤ)) :
    (bayer_step M).length = 2 * M.length := by
  simp only [bayer_step, List.length_append, List.length_zipWith,
    List.length_map, Nat.min_self]
  ring

theorem bayer_step_rows {M : List (List ℤ)} {s : ℕ}
    (h : ∀ row ∈ M, row.length = s) :
    ∀ row ∈ bayer_step M, row.length = 2 * s := by
  intro row hrow
  simp only [bayer_step] at hrow
  rcases List.mem_append.mp hrow with hr | hr <;>
  · rcases mem_zipWith hr with ⟨a, ha, b, hb, rfl⟩
    rcases List.mem_map.mp ha with ⟨ra, hra, rfl⟩
    rcases List.mem_map.mp hb with ⟨rb, hrb, rfl⟩
    simp only [List.length_append, List.length_map, h ra hra, h rb hrb]
    ring

theorem bayerPow_length (k : ℕ) : (bayerPow k).length = 2 ^ k := by
  induction k with
  | zero => rfl
  | succ k ih =>
    have e : bayerPow (k + 1) = bayer_step (bayerPow k) := rfl
    rw [e, bayer_step_length, ih, pow_succ]
    ring

theorem bayerPow_rows (k : ℕ) : ∀ row ∈ bayerPow k, row.length = 2 ^ k := by
  induction k with
  | zero =>
    intro row h
    have : row = [0] := by simpa [bayerPow] using h
    simp [this]
  | succ k ih =>
    intro row h
    have e : bayerPow (k + 1) = bayer_step (bayerPow k) := rfl
    rw [e] at h
    have := bayer_step_rows ih row h
    rw [this, pow_succ]
    ring

theorem count_map_affine (S : List ℤ) (c v : ℤ) (h0 : 0 ≤ c) (h4 : c < 4) :
    (S.map (fun a => 4 * a + c)).count v =
      if v % 4 = c then S.count ((v - c) / 4) else 0 := by
  by_cases hv : v % 4 = c
  · rw [if_pos hv]
    have hinj : Function.Injective (fun a : ℤ => 4 * a + c) := by
      intro x y hxy
      have hxy2 : 4 * x + c = 4 * y + c := hxy
      omega
    have hcnt : (S.map (fun a : ℤ => 4 * a + c)).count (4 * ((v - c) / 4) + c) =
        S.count ((v - c) / 4) :=
      List.count_map_of_injective S (fun a : ℤ => 4 * a + c) hinj ((v - c) / 4)
    have harg : 4 * ((v - c) / 4) + c = v := by omega
    rwa [harg] at hcnt
  · rw [if_neg hv]
    refine List.count_eq_zero.mpr (fun hmem => ?_)
    rcases List.mem_map.mp hmem with ⟨a, _, ha⟩
    have ha2 : 4 * a + c = v := ha
    omega

theorem count_map_affine0 (S : List ℤ) (v : ℤ) :
    (S.map (fun a => 4 * a)).count v =
      if v % 4 = 0 then S.count (v / 4) else 0 := by
  have e : (fun a : ℤ => 4 * a) = (fun a : ℤ => 4 * a + 0) := by
    funext a; ring
  rw [e, count_map_affine S 0 v le_rfl (by norm_num), sub_zero]

theorem bayerPow_count (k : ℕ) (v : ℤ) :
    (bayerPow k).flatten.count v = if 0 ≤ v ∧ v < 4 ^ k then 1 else 0 := by
  induction k generalizing v with
  | zero =>
    rw [show (bayerPow 0).flatten = [0] from rfl, List.count_singleton', pow_zero]
    by_cases hv : (0 : ℤ) = v
    · rw [if_pos hv, if_pos (by omega)]
    · rw [if_neg hv, if_neg (by omega)]
  | succ k ih =>
    have e1 : bayerPow (k + 1) =
        List.zipWith (· ++ ·) ((bayerPow k).map (List.map (fun a => 4 * a)))
          ((bayerPow k).map (List.map (fun a => 4 * a + 2))) ++
        List.zipWith (· ++ ·) ((bayerPow k).map (List.map (fun a => 4 * a + 3)))
          ((bayerPow k).map (List.map (fun a => 4 * a + 1))) := rfl
    rw [e1, List.flatten_append, List.count_append,
      count_flatten_zipWith_append v _ _ (by simp),
      count_flatten_zipWith_append v _ _ (by simp),
      flatten_map_map, flatten_map_map, flatten_map_map, flatten_map_map,
      count_map_affine0, count_map_affine _ 2 v (by norm_num) (by norm_num),
      count_map_affine _ 3 v (by norm_num) (by norm_num),
      count_map_affine _ 1 v (by norm_num) (by norm_num)]
    simp only [ih]
    have hP : (0 : ℤ) < 4 ^ k := pow_pos (by norm_num) k
    have h4 : (4 : ℤ) ^ (k + 1) = 4 * 4 ^ k := by rw [pow_succ]; ring
    rw [h4]
    split_ifs <;> omega

theorem bayerPow_mem_bounds (k : ℕ) (v : ℤ)
    (h : v ∈ (bayerPow k).flatten) : 0 ≤ v ∧ v < 4 ^ k := by
  by_contra hc
  have hcnt := bayerPow_count k v
  rw [if_neg hc] at hcnt
  exact (List.count_eq_zero.mp hcnt) h

theorem bayerFuel_pow (k f : ℕ) (h : k < f) :
    bayerFuel f ((2 : ℤ) ^ k) = some (bayerPow k) := by
  induction k generalizing f with
  | zero =>
    cases f with
    | zero => omega
    | succ f => simp [bayerFuel, bayerPow]
  | succ k ih =>
    cases f with
    | zero => omega
    | succ f =>
      have hp : (0 : ℤ) < 2 ^ k := pow_pos (by norm_num) k
      have e : (2 : ℤ) ^ (k + 1) = 2 * 2 ^ k := by rw [pow_succ]; ring
      have h2 : ((2 : ℤ) ^ (k + 1)) ≠ 1 := by rw [e]; omega
      have hdiv : Int.fdiv ((2 : ℤ) ^ (k + 1)) 2 = 2 ^ k := by
        rw [Int.fdiv_eq_ediv _ (by norm_num), e,
          Int.mul_ediv_cancel_left _ (by norm_num)]
      simp only [bayerFuel, if_neg h2, hdiv, ih f (by omega), Option.map_some']
      rfl

theorem bayerFuel_mono : ∀ (f f' : ℕ) (n : ℤ) (M : List (List ℤ)),
    bayerFuel f n = some M → f ≤ f' → bayerFuel f' n = some M := by
  intro f
  induction f with
  | zero => intro f' n M h; simp [bayerFuel] at h
  | succ f ih =>
    intro f' n M h hle
    cases f' with
    | zero => omega
    | succ f' =>
      by_cases h1 : n = 1
      · simp only [bayerFuel, if_pos h1] at h ⊢
        exact h
      · simp only [bayerFuel, if_neg h1] at h ⊢
        rcases Option.map_eq_some'.mp h with ⟨M', hM', rfl⟩
        rw [ih f' _ _ hM' (by omega)]
        rfl

theorem bayerFuel_pos (m : ℕ) (hm : 1 ≤ m) :
    ∃ M, bayerFuel m ((m : ℕ) : ℤ) = some M ∧
      M.length = 2 ^ Nat.log 2 m ∧
      ∀ row ∈ M, row.length = 2 ^ Nat.log 2 m := by
  induction m using Nat.strong_induction_on with
  | _ m ih =>
    rcases Nat.lt_or_ge m 2 with hm2 | hm2
    · have hm1 : m = 1 := by omega
      subst hm1
      refine ⟨[[0]], by simp [bayerFuel], ?_, ?_⟩
      · simp [Nat.log_one_right]
      · intro row hrow
        have : row = [0] := by simpa using hrow
        simp [this, Nat.log_one_right]
    · have hm' : 1 ≤ m / 2 := by omega
      have hlt : m / 2 < m := by omega
      rcases ih (m / 2) hlt hm' with ⟨M', hM', hlen, hrows⟩
      have hfuel : bayerFuel (m - 1) ((m / 2 : ℕ) : ℤ) = some M' :=
        bayerFuel_mono _ _ _ _ hM' (by omega)
      obtain ⟨f, rfl⟩ : ∃ f, m = f + 1 := ⟨m - 1, by omega⟩
      have h1 : ((f + 1 : ℕ) : ℤ) ≠ 1 := by
        have : ((f + 1 : ℕ) : ℤ) = (f : ℤ) + 1 := by push_cast; ring
        omega
      have hdiv : Int.fdiv ((f + 1 : ℕ) : ℤ) 2 = (((f + 1) / 2 : ℕ) : ℤ) := by
        rw [Int.fdiv_eq_ediv _ (by norm_num), Int.natCast_div]
        norm_num
      have hlog : Nat.log 2 (f + 1) = Nat.log 2 ((f + 1) / 2) + 1 := by
        have hpos : 0 < Nat.log 2 (f + 1) := Nat.log_pos (by norm_num) hm2
        have := Nat.log_div_base 2 (f + 1)
        omega
      refine ⟨bayer_step M', ?_, ?_, ?_⟩
      · simp only [bayerFuel, if_neg h1, hdiv]
        have hf : f + 1 - 1 = f := by omega
        rw [hf] at hfuel
        rw [hfuel]
        rfl
      · rw [bayer_step_length, hlen, hlog, pow_succ]
        ring
      · intro row hrow
        have := bayer_step_rows hrows row hrow
        rw [this, hlog, pow_succ]
        ring

theorem bayerFuel_nonpos : ∀ (f : ℕ) (n : ℤ), n ≤ 0 → bayerFuel f n = none := by
  intro f
  induction f with
  | zero => intro n _; rfl
  | succ f ih =>
    intro n h
    have h1 : n ≠ 1 := by omega
    have h2 : Int.fdiv n 2 ≤ 0 := by
      rw [Int.fdiv_eq_ediv _ (by norm_num)]
      omega
    simp only [bayerFuel, if_neg h1, ih _ h2, Option.map_none']

/- ### Tiling lemmas -/

theorem lt_tile_bound (h k : ℕ) (hk : 0 < k) : h < (h / k + 1) * k := by
  have h1 := Nat.div_add_mod h k
  have h2 := Nat.mod_lt h hk
  calc h = k * (h / k) + h % k := h1.symm
    _ < k * (h / k) + k := by omega
    _ = (h / k + 1) * k := by ring

theorem np_tile_length {α : Type} (M : List (List α)) (a b : ℕ) :
    (np_tile M a b).length = a * M.length := by
  rw [np_tile, length_flatten_replicate, List.length_map]

theorem tile_crop_length {α : Type} (M : List (List α)) (h w k : ℕ)
    (hk : 0 < k) (hM : M.length = k) : (tile_crop M h w k).length = h := by
  rw [tile_crop, List.length_map, List.length_take, np_tile_length, hM]
  have := lt_tile_bound h k hk
  omega

theorem tile_crop_rows {α : Type} (M : List (List α)) (h w k : ℕ)
    (hk : 0 < k) (hrows : ∀ row ∈ M, row.length = k) :
    ∀ row ∈ tile_crop M h w k, row.length = w := by
  intro row hrow
  rcases List.mem_map.mp hrow with ⟨u, hu, rfl⟩
  have hu2 : u ∈ np_tile M (h / k + 1) (w / k + 1) := List.take_subset _ _ hu
  rcases List.mem_map.mp (mem_flatten_replicate hu2) with ⟨mrow, hmrow, rfl⟩
  rw [List.length_take, length_flatten_replicate, hrows mrow hmrow]
  have := lt_tile_bound w k hk
  omega

theorem mem_tile_crop {α : Type} {M : List (List α)} {h w k : ℕ}
    {row : List α} {t : α} (hrow : row ∈ tile_crop M h w k) (ht : t ∈ row) :
    ∃ mrow ∈ M, t ∈ mrow := by
  rcases List.mem_map.mp hrow with ⟨u, hu, rfl⟩
  have ht2 : t ∈ u := List.take_subset _ _ ht
  have hu2 : u ∈ np_tile M (h / k + 1) (w / k + 1) := List.take_subset _ _ hu
  rcases List.mem_map.mp (mem_flatten_replicate hu2) with ⟨mrow, hmrow, rfl⟩
  exact ⟨mrow, hmrow, mem_flatten_replicate ht2⟩

theorem tile_crop_get {α : Type} (M : List (List α)) (h w k : ℕ) (d : α)
    (hk : 0 < k) (hM : M.length = k) (hrows : ∀ row ∈ M, row.length = k)
    (y x : ℕ) (hy : y < h) (hx : x < w) :
    Mget (tile_crop M h w k) y x d = Mget M (y % k) (x % k) d := by
  have hyk : y < (h / k + 1) * M.length := by
    rw [hM]; exact lt_of_lt_of_le hy (le_of_lt (lt_tile_bound h k hk))
  have hylen : y < ((np_tile M (h / k + 1) (w / k + 1)).take h).length := by
    rw [List.length_take, np_tile_length]
    omega
  rw [Mget, tile_crop, getD_map_lt _ _ _ hylen _ []]
  rw [getD_take_lt _ _ _ _ hy, np_tile, getD_flatten_replicate _ _ _ _ (by
    rw [List.length_map]; exact hyk)]
  rw [List.length_map, hM]
  have hymod : y % k < M.length := by rw [hM]; exact Nat.mod_lt _ hk
  rw [getD_map_lt _ _ _ hymod _ []]
  have hmrow : M.getD (y % k) [] ∈ M := getD_mem _ _ _ hymod
  have hrl : (M.getD (y % k) []).length = k := hrows _ hmrow
  have hxk : x < (w / k + 1) * (M.getD (y % k) []).length := by
    rw [hrl]; exact lt_of_lt_of_le hx (le_of_lt (lt_tile_bound w k hk))
  rw [getD_take_lt _ _ _ _ hx, getD_flatten_replicate _ _ _ _ hxk, hrl, Mget]

/- ### Quantizer lemmas -/

theorem paint_high (lev : ℤ) : ∀ (l : List RGB) (idx : ℤ) (acc : RGB),
    lev < idx → paint lev l idx acc = acc := by
  intro l
  induction l with
  | nil => intro idx acc _; rfl
  | cons c rest ih =>
    intro idx acc hlt
    rw [paint, if_neg (by omega)]
    exact ih (idx + 1) acc (by omega)

theorem paint_get : ∀ (l : List RGB) (idx : ℤ) (acc : RGB) (j : ℕ),
    j < l.length → paint (idx + (j : ℤ)) l idx acc = l.getD j (0, 0, 0) := by
  intro l
  induction l with
  | nil => intro idx acc j hj; simp at hj
  | cons c rest ih =>
    intro idx acc j hj
    cases j with
    | zero =>
      rw [Nat.cast_zero, add_zero, paint, if_pos rfl]
      exact paint_high idx rest (idx + 1) c (by omega)
    | succ j =>
      have hcast : idx + ((j + 1 : ℕ) : ℤ) = (idx + 1) + (j : ℤ) := by
        push_cast; ring
      rw [hcast, paint, if_neg (by omega)]
      exact ih (idx + 1) _ j (by simpa using hj)

theorem quantizeN_level_bounds {α : Type} [LinearOrderedField α] [FloorRing α]
    (g t : α) (sh : Bool) (L : ℕ) (hL : 1 ≤ L) :
    0 ≤ quantizeN_level g sh t L ∧ quantizeN_level g sh t L ≤ (L : ℤ) - 1 := by
  have hL2 : (1 : ℤ) ≤ (L : ℤ) := by exact_mod_cast hL
  simp only [quantizeN_level]
  cases sh <;> simp only [if_true, if_false, Bool.false_eq_true, Bool.true_eq_false] <;>
    constructor <;> omega

theorem quantizeN_level_eq_spec {α : Type} [LinearOrderedField α] [FloorRing α]
    (g t : α) (sh : Bool) (L : ℕ) :
    quantizeN_level g sh t L = level_spec g t L sh := by
  simp only [quantizeN_level, level_spec,
    min_comm ((9999 : α) / 10000) (max g 0),
    min_comm ((L : ℤ) - 1)]

theorem quantizeN_level_shadow {α : Type} [LinearOrderedField α] [FloorRing α]
    (g t : α) (L : ℕ) : quantizeN_level g true t L = 0 := by
  simp [quantizeN_level]

theorem quantizeN_color_getD {α : Type} [LinearOrderedField α] [FloorRing α]
    (g t : α) (sh : Bool) (colors : List RGB) (hL : 1 ≤ colors.length) :
    quantizeN_color g sh t colors =
      colors.getD (quantizeN_level g sh t colors.length).toNat (0, 0, 0) := by
  have hb := quantizeN_level_bounds g t sh colors.length hL
  have hj : (quantizeN_level g sh t colors.length).toNat < colors.length := by
    omega
  have hp := paint_get colors 0 (0, 0, 0)
    (quantizeN_level g sh t colors.length).toNat hj
  rw [show (0 : ℤ) + (((quantizeN_level g sh t colors.length).toNat : ℕ) : ℤ) =
      quantizeN_level g sh t colors.length from by
    rw [Int.toNat_of_nonneg hb.1]; ring] at hp
  exact hp

/- ### Tonal shaping lemmas -/

theorem gamma_eq : gamma = 11 / 10 := by norm_num [gamma]

theorem shadow_cutoff_eq : shadow_cutoff = 28 / 100 := by
  norm_num [shadow_cutoff]

theorem gray_lin_one : gray_lin 1 = 1 := Real.one_rpow gamma

theorem gray_lin_zero : gray_lin 0 = 0 := by
  rw [gray_lin]
  exact Real.zero_rpow (by rw [gamma_eq]; norm_num)

theorem shadow_mask_one : shadow_mask 1 = false := by
  rw [shadow_mask]
  apply decide_eq_false
  rw [gray_lin_one, shadow_cutoff_eq]
  norm_num

theorem shadow_mask_of_lt {g : ℝ} (h : gray_lin g < shadow_cutoff) :
    shadow_mask g = true := by
  rw [shadow_mask]
  exact decide_eq_true h

theorem gray_scaled_one : gray_scaled 1 = 1 := by
  rw [gray_scaled, gray_lin_one, shadow_cutoff_eq]
  norm_num

/- ### Pipeline lemmas -/

theorem pixel2_one (t : ℝ) (ht : t ≤ 1) (bg fg : RGB) :
    pixel2 1 t bg fg = fg := by
  rw [pixel2, quantize2, shadow_mask_one, gray_scaled_one,
    if_neg (by simp), if_pos ht]

theorem rasterize2_def (gray : List (List ℝ)) (k : ℕ) (bg fg : RGB) :
    rasterize2 gray k bg fg =
      List.zipWith
        (fun grow trow =>
          List.zipWith (fun g t => pixel2 g t bg fg) grow trow)
        gray
        (tile_crop ((bayerPow k).map (List.map (fun v : ℤ =>
            ((v : ℝ) + 0.5) / (((2 ^ k : ℕ) : ℝ) * ((2 ^ k : ℕ) : ℝ)))))
          gray.length (gray.headD []).length (2 ^ k)) := rfl

theorem norm_bayer_entry_le_one (k : ℕ) {t : ℝ}
    (ht : ∃ mrow ∈ (bayerPow k).map (List.map (fun v : ℤ =>
        ((v : ℝ) + 0.5) / (((2 ^ k : ℕ) : ℝ) * ((2 ^ k : ℕ) : ℝ)))), t ∈ mrow) :
    t ≤ 1 := by
  rcases ht with ⟨mrow, hmrow, htm⟩
  rcases List.mem_map.mp hmrow with ⟨brow, hbrow, rfl⟩
  rcases List.mem_map.mp htm with ⟨v, hv, rfl⟩
  have hb := bayerPow_mem_bounds k v (List.mem_flatten.mpr ⟨brow, hbrow, hv⟩)
  have hv1 : v ≤ 4 ^ k - 1 := by omega
  have hv4 : (v : ℝ) ≤ (4 : ℝ) ^ k - 1 := by exact_mod_cast hv1
  have hsq : ((2 ^ k : ℕ) : ℝ) * ((2 ^ k : ℕ) : ℝ) = (4 : ℝ) ^ k := by
    push_cast
    rw [← mul_pow]
    norm_num
  have hpos : (0 : ℝ) < ((2 ^ k : ℕ) : ℝ) * ((2 ^ k : ℕ) : ℝ) := by
    rw [hsq]
    positivity
  refine (div_le_one hpos).mpr ?_
  rw [hsq]
  norm_num
  linarith

theorem rasterize2_white (h w k : ℕ) (bg fg : RGB) :
    rasterize2 (List.replicate h (List.replicate w (1 : ℝ))) k bg fg =
      List.replicate h (List.replicate w fg) := by
  cases h with
  | zero => rfl
  | succ h0 =>
    rw [rasterize2_def]
    set f : ℤ → ℝ := fun v : ℤ =>
      ((v : ℝ) + 0.5) / (((2 ^ k : ℕ) : ℝ) * ((2 ^ k : ℕ) : ℝ)) with hf
    set Mn := (bayerPow k).map (List.map f) with hMn
    have hk : 0 < 2 ^ k := pow_pos (by norm_num) k
    have hMl : Mn.length = 2 ^ k := by
      rw [hMn, List.length_map, bayerPow_length]
    have hMr : ∀ row ∈ Mn, row.length = 2 ^ k := by
      intro row hrow
      rcases List.mem_map.mp hrow with ⟨brow, hbrow, rfl⟩
      rw [List.length_map]
      exact bayerPow_rows k brow hbrow
    have hglen : (List.replicate (h0 + 1) (List.replicate w (1 : ℝ))).length
        = h0 + 1 := List.length_replicate _ _
    have hghead : (List.replicate (h0 + 1) (List.replicate w (1 : ℝ))).headD []
        = List.replicate w (1 : ℝ) := by
      rw [List.replicate_succ]
      rfl
    rw [hglen, hghead, List.length_replicate]
    set tiled := tile_crop Mn (h0 + 1) w (2 ^ k) with htiled
    have hTl : tiled.length = h0 + 1 := tile_crop_length Mn _ _ _ hk hMl
    have hTr : ∀ row ∈ tiled, row.length = w := tile_crop_rows Mn _ _ _ hk hMr
    rw [zipWith_replicate_left, ← hTl, List.take_length, hTl]
    refine List.eq_replicate_iff.mpr ⟨by rw [List.length_map, hTl], ?_⟩
    intro brow hbrow
    rcases List.mem_map.mp hbrow with ⟨trow, htrow, rfl⟩
    rw [zipWith_replicate_left, ← hTr trow htrow, List.take_length, hTr trow htrow]
    refine List.eq_replicate_iff.mpr
      ⟨by rw [List.length_map, hTr trow htrow], ?_⟩
    intro c hc
    rcases List.mem_map.mp hc with ⟨t, htmem, rfl⟩
    have hble : t ≤ 1 :=
      norm_bayer_entry_le_one k (mem_tile_crop htrow htmem)
    exact pixel2_one t hble bg fg

/- ### Claim theorems -/

/-- C1, counterexample: calling `rasterize` with the unknown palette name
"vt320" does raise the palette `KeyError`, but gamma shaping, tiling and
mask computation have all already run when the lookup fails —
contradicting the claim that no pixel computation happens before the
unknown-palette failure. -/
theorem C1_pixel_work_precedes_unknown_palette_failure :
    lookupPalette "vt320" = none ∧
    (rasterize_trace "vt320" false).2 = Except.error "KeyError" ∧
    RStep.gammaApply ∈ (rasterize_trace "vt320" false).1 ∧
    RStep.tileMatrix ∈ (rasterize_trace "vt320" false).1 ∧
    RStep.maskCompute ∈ (rasterize_trace "vt320" false).1 :=
  ⟨rfl, rfl, by decide, by decide, by decide⟩

/-- C1, amended: for every palette name missing from the table (with or
without a resize), `rasterize` raises the `KeyError` at the palette
lookup, and neither the quantization that builds the output color buffer
nor the output write ever runs — although the per-pixel shaping, tiling
and masking stages have already run by then. -/
theorem C1_unknown_palette_fails_before_output (name : String) (r : Bool)
    (hn : lookupPalette name = none) :
    (rasterize_trace name r).2 = Except.error "KeyError" ∧
    RStep.quantizeApply ∉ (rasterize_trace name r).1 ∧
    RStep.writeOutput ∉ (rasterize_trace name r).1 := by
  cases r <;> simp only [rasterize_trace, hn] <;>
    exact ⟨by trivial, by decide, by decide⟩

theorem C1_unknown_palette_fails_before_output_witness :
    (rasterize_trace "teal" false).2 = Except.error "KeyError" ∧
    RStep.quantizeApply ∉ (rasterize_trace "teal" false).1 ∧
    RStep.writeOutput ∉ (rasterize_trace "teal" false).1 :=
  C1_unknown_palette_fails_before_output "teal" false (by decide)

/-- C2: the default `palette_name` of both `rasterize` and
`process_folder` is "vt320"; the palette table's keys are exactly
"VT320", "matrix", "paper", "amber", "c64", "green_phosphor", "dmg", so
the default name is not among them and the default lookup fails with a
`KeyError` — and, on the default invocation, only after the per-pixel
gamma shaping, tiling, mask computation and shadow forcing have all
completed. -/
theorem C2_default_palette_fails_after_pixel_work :
    rasterize_default_palette = "vt320" ∧
    process_folder_default_palette = "vt320" ∧
    PALETTES.map Prod.fst =
      ["VT320", "matrix", "paper", "amber", "c64", "green_phosphor", "dmg"] ∧
    lookupPalette rasterize_default_palette = none ∧
    ∀ r : Bool,
      (rasterize_trace rasterize_default_palette r).2 =
        Except.error "KeyError" ∧
      RStep.gammaApply ∈ (rasterize_trace rasterize_default_palette r).1 ∧
      RStep.tileMatrix ∈ (rasterize_trace rasterize_default_palette r).1 ∧
      RStep.maskCompute ∈ (rasterize_trace rasterize_default_palette r).1 ∧
      RStep.maskShadowForce ∈ (rasterize_trace rasterize_default_palette r).1 := by
  refine ⟨rfl, rfl, rfl, rfl, fun r => ?_⟩
  cases r <;> exact ⟨rfl, by decide, by decide, by decide, by decide⟩

/-- C3: for every power of two `n = 2^k` (with fuel covering the `k+1`
recursive calls), `bayer_matrix(n)` returns an `n × n` matrix in which
every integer in `[0, n² − 1]` occurs exactly once. -/
theorem C3_bayer_full_permutation (k f : ℕ) (hf : k < f) :
    ∃ M, bayerFuel f ((2 : ℤ) ^ k) = some M ∧
      M.length = 2 ^ k ∧ (∀ row ∈ M, row.length = 2 ^ k) ∧
      ∀ v : ℤ, 0 ≤ v → v < ((2 : ℤ) ^ k) ^ 2 → M.flatten.count v = 1 := by
  refine ⟨bayerPow k, bayerFuel_pow k f hf, bayerPow_length k,
    bayerPow_rows k, ?_⟩
  intro v h0 hv
  have h4 : ((2 : ℤ) ^ k) ^ 2 = 4 ^ k := by
    calc ((2 : ℤ) ^ k) ^ 2 = (2 : ℤ) ^ (k * 2) := (pow_mul 2 k 2).symm
      _ = ((2 : ℤ) ^ 2) ^ k := by rw [mul_comm, pow_mul]
      _ = 4 ^ k := by norm_num
  rw [bayerPow_count, if_pos ⟨h0, by rw [← h4]; exact hv⟩]

theorem C3_bayer_full_permutation_witness :
    ∃ M, bayerFuel 3 ((2 : ℤ) ^ 2) = some M ∧
      M.length = 2 ^ 2 ∧ (∀ row ∈ M, row.length = 2 ^ 2) ∧
      ∀ v : ℤ, 0 ≤ v → v < ((2 : ℤ) ^ 2) ^ 2 → M.flatten.count v = 1 :=
  C3_bayer_full_permutation 2 3 (by decide)

/-- C4: a pixel whose gamma-shaped luminance falls below the shadow
cutoff (its shadow mask is set) is output as the darkest palette entry
regardless of its threshold comparison: the background color in 2-color
mode, and `palette[0]` in N-color mode. -/
theorem C4_shadow_pixels_darkest (g t : ℝ) (bg fg : RGB)
    (colors : List RGB) (hsh : gray_lin g < shadow_cutoff)
    (hN : 3 ≤ colors.length) :
    pixel2 g t bg fg = bg ∧ pixelN g t colors = colors.getD 0 (0, 0, 0) := by
  have hm := shadow_mask_of_lt hsh
  constructor
  · rw [pixel2, hm, quantize2, if_pos rfl]
  · rw [pixelN, hm,
      quantizeN_color_getD (gray_scaled g) t true colors (by omega),
      quantizeN_level_shadow, Int.toNat_zero]

theorem C4_shadow_pixels_darkest_witness :
    pixel2 0 (1 / 2) (1, 2, 3) (4, 5, 6) = (1, 2, 3) ∧
    pixelN 0 (1 / 2) [(7, 7, 7), (8, 8, 8), (9, 9, 9)] =
      (([(7, 7, 7), (8, 8, 8), (9, 9, 9)] : List RGB)).getD 0 (0, 0, 0) :=
  C4_shadow_pixels_darkest 0 (1 / 2) (1, 2, 3) (4, 5, 6)
    [(7, 7, 7), (8, 8, 8), (9, 9, 9)]
    (by rw [gray_lin_zero, shadow_cutoff_eq]; norm_num) (by decide)

/-- C5: in N-color mode (N ≥ 3), for any shaped gray, threshold and
shadow flag, the output pixel equals `palette[level]` where `level` is
exactly the specification's formula
`clamp(floor(clamp(g, 0, 0.9999) · N + t), 0, N − 1)` forced to `0` on
shadow; the code's level agrees with that formula and always lies within
`[0, N − 1]`. -/
theorem C5_ncolor_level_formula {α : Type} [LinearOrderedField α]
    [FloorRing α] (g t : α) (sh : Bool) (colors : List RGB)
    (hN : 3 ≤ colors.length) :
    quantizeN_color g sh t colors =
      colors.getD (level_spec g t colors.length sh).toNat (0, 0, 0) ∧
    quantizeN_level g sh t colors.length = level_spec g t colors.length sh ∧
    0 ≤ level_spec g t colors.length sh ∧
    level_spec g t colors.length sh ≤ (colors.length : ℤ) - 1 := by
  have he := quantizeN_level_eq_spec g t sh colors.length
  have hb := quantizeN_level_bounds g t sh colors.length (by omega)
  refine ⟨?_, he, he ▸ hb.1, he ▸ hb.2⟩
  rw [quantizeN_color_getD g t sh colors (by omega), he]

theorem C5_ncolor_level_formula_witness :
    quantizeN_color (1 / 2 : ℚ) false (1 / 4)
        [(1, 1, 1), (2, 2, 2), (3, 3, 3), (4, 4, 4)] =
      (([(1, 1, 1), (2, 2, 2), (3, 3, 3), (4, 4, 4)] : List RGB)).getD
        (level_spec (1 / 2 : ℚ) (1 / 4)
          (([(1, 1, 1), (2, 2, 2), (3, 3, 3), (4, 4, 4)] : List RGB)).length
          false).toNat (0, 0, 0) ∧
    quantizeN_level (1 / 2 : ℚ) false (1 / 4)
        (([(1, 1, 1), (2, 2, 2), (3, 3, 3), (4, 4, 4)] : List RGB)).length =
      level_spec (1 / 2 : ℚ) (1 / 4)
        (([(1, 1, 1), (2, 2, 2), (3, 3, 3), (4, 4, 4)] : List RGB)).length
        false ∧
    0 ≤ level_spec (1 / 2 : ℚ) (1 / 4)
        (([(1, 1, 1), (2, 2, 2), (3, 3, 3), (4, 4, 4)] : List RGB)).length
        false ∧
    level_spec (1 / 2 : ℚ) (1 / 4)
        (([(1, 1, 1), (2, 2, 2), (3, 3, 3), (4, 4, 4)] : List RGB)).length
        false ≤
      ((([(1, 1, 1), (2, 2, 2), (3, 3, 3), (4, 4, 4)] : List RGB)).length : ℤ)
        - 1 :=
  C5_ncolor_level_formula (1 / 2 : ℚ) (1 / 4) false
    [(1, 1, 1), (2, 2, 2), (3, 3, 3), (4, 4, 4)] (by decide)

/-- C6: the tonal shaper computes, per pixel, `gray_lin = gray ^ gamma`
with `gamma = 1.1 = 11/10`, `shadow_mask = (gray_lin < shadow_cutoff)`
with `shadow_cutoff = 0.28 = 28/100`, and
`shaped = clip((gray_lin − cutoff) / (1 − cutoff), 0, 1)`. -/
theorem C6_tonal_shaping_formula :
    gamma = 11 / 10 ∧ shadow_cutoff = 28 / 100 ∧
    ∀ g : ℝ,
      gray_lin g = g ^ ((11 : ℝ) / 10) ∧
      (shadow_mask g = true ↔ g ^ ((11 : ℝ) / 10) < 28 / 100) ∧
      gray_scaled g = shape_spec g (11 / 10) (28 / 100) := by
  refine ⟨gamma_eq, shadow_cutoff_eq, fun g => ⟨?_, ?_, ?_⟩⟩
  · simp only [gray_lin, gamma_eq]
  · simp only [shadow_mask, gray_lin, gamma_eq, shadow_cutoff_eq,
      decide_eq_true_eq]
  · simp only [gray_scaled, shape_spec, gray_lin, gamma_eq, shadow_cutoff_eq]

/-- C9: for every 2-color palette `(bg, fg)` and every all-white
grayscale image (every pixel at luminance 1), the pipeline outputs the
foreground color at every pixel: `1 ^ gamma = 1` is not below the shadow
cutoff, the shaped luminance is 1, and every normalized tiled threshold
is strictly below 1. -/
theorem C9_white_image_all_foreground (h w k : ℕ) (bg fg : RGB) :
    rasterize2 (List.replicate h (List.replicate w (1 : ℝ))) k bg fg =
      List.replicate h (List.replicate w fg) :=
  rasterize2_white h w k bg fg

/-- C10: `bayer_matrix(n)` terminates for every integer `n ≥ 1`
(including non-powers of two), returning a square matrix of side
`2 ^ ⌊log₂ n⌋`; for every `n ≤ 0` the recursion never terminates (no
fuel bound suffices). -/
theorem C10_bayer_termination :
    (∀ n : ℤ, 1 ≤ n → ∃ (f : ℕ) (M : List (List ℤ)),
      bayerFuel f n = some M ∧
      M.length = 2 ^ Nat.log 2 n.toNat ∧
      ∀ row ∈ M, row.length = 2 ^ Nat.log 2 n.toNat) ∧
    ∀ n : ℤ, n ≤ 0 → ∀ f : ℕ, bayerFuel f n = none := by
  constructor
  · intro n hn
    rcases bayerFuel_pos n.toNat (by omega) with ⟨M, hM, hl, hr⟩
    have hc : ((n.toNat : ℕ) : ℤ) = n := Int.toNat_of_nonneg (by omega)
    rw [hc] at hM
    exact ⟨n.toNat, M, hM, hl, hr⟩
  · intro n hn f
    exact bayerFuel_nonpos f n hn

theorem C10_bayer_termination_witness :
    (∃ (f : ℕ) (M : List (List ℤ)),
      bayerFuel f (3 : ℤ) = some M ∧
      M.length = 2 ^ Nat.log 2 (3 : ℤ).toNat ∧
      ∀ row ∈ M, row.length = 2 ^ Nat.log 2 (3 : ℤ).toNat) ∧
    bayerFuel 7 (-5 : ℤ) = none :=
  ⟨C10_bayer_termination.1 3 (by decide),
    C10_bayer_termination.2 (-5) (by decide) 7⟩

/- ### Quadrant indexing helpers and remaining claims -/

theorem half_row_get (M : List (List ℤ)) (s : ℕ) (hM : M.length = s)
    (hrows : ∀ row ∈ M, row.length = s) (f g : ℤ → ℤ) (y x : ℕ)
    (hy : y < s) (hx : x < 2 * s) :
    ((List.zipWith (· ++ ·) (M.map (List.map f))
        (M.map (List.map g))).getD y []).getD x 0 =
      if x < s then f (Mget M y x 0) else g (Mget M y (x - s) 0) := by
  have hyM : y < M.length := by omega
  have hyl : y < (M.map (List.map f)).length := by
    rw [List.length_map]; exact hyM
  have hyr : y < (M.map (List.map g)).length := by
    rw [List.length_map]; exact hyM
  rw [getD_zipWith_lt _ _ _ _ hyl hyr [] [] [],
    getD_map_lt _ _ _ hyM _ [], getD_map_lt _ _ _ hyM _ []]
  have hrl : (M.getD y []).length = s := hrows _ (getD_mem _ _ _ hyM)
  by_cases hxs : x < s
  · rw [if_pos hxs,
      getD_append_lt _ _ _ _ (by rw [List.length_map, hrl]; exact hxs),
      getD_map_lt _ _ _ (by rw [hrl]; exact hxs) _ 0, Mget]
  · rw [if_neg hxs,
      getD_append_ge _ _ _ _ (by rw [List.length_map, hrl]; omega),
      List.length_map, hrl,
      getD_map_lt _ _ _ (by rw [hrl]; omega) _ 0, Mget]

theorem bayer_step_get (M : List (List ℤ)) (s : ℕ) (hs : 0 < s)
    (hM : M.length = s) (hrows : ∀ row ∈ M, row.length = s)
    (y x : ℕ) (hy : y < 2 * s) (hx : x < 2 * s) :
    Mget (bayer_step M) y x 0 =
      4 * Mget M (y % s) (x % s) 0 +
        (if y < s then (if x < s then 0 else 2)
         else (if x < s then 3 else 1)) := by
  have htl : (List.zipWith (· ++ ·) (M.map (List.map (fun a => 4 * a)))
      (M.map (List.map (fun a => 4 * a + 2)))).length = s := by
    rw [List.length_zipWith, List.length_map, List.length_map, hM,
      Nat.min_self]
  have e : bayer_step M =
      List.zipWith (· ++ ·) (M.map (List.map (fun a => 4 * a)))
        (M.map (List.map (fun a => 4 * a + 2))) ++
      List.zipWith (· ++ ·) (M.map (List.map (fun a => 4 * a + 3)))
        (M.map (List.map (fun a => 4 * a + 1))) := rfl
  rw [Mget, e]
  by_cases hys : y < s
  · rw [getD_append_lt _ _ _ _ (by rw [htl]; exact hys),
      half_row_get M s hM hrows _ _ y x hys hx, if_pos hys,
      Nat.mod_eq_of_lt hys]
    by_cases hxs : x < s
    · rw [if_pos hxs, if_pos hxs, Nat.mod_eq_of_lt hxs]
      omega
    · rw [if_neg hxs, if_neg hxs, Nat.mod_eq_sub_mod (by omega),
        Nat.mod_eq_of_lt (by omega)]
  · rw [getD_append_ge _ _ _ _ (by rw [htl]; omega), htl,
      half_row_get M s hM hrows _ _ (y - s) x (by omega) hx, if_neg hys,
      Nat.mod_eq_sub_mod (by omega : s ≤ y), Nat.mod_eq_of_lt (by omega)]
    by_cases hxs : x < s
    · rw [if_pos hxs, if_pos hxs, Nat.mod_eq_of_lt hxs]
    · rw [if_neg hxs, if_neg hxs, Nat.mod_eq_sub_mod (by omega),
        Nat.mod_eq_of_lt (by omega)]

/-- C7: the Bayer generator follows the claimed recursion exactly: with
any fuel, input `n = 1` returns the single-cell matrix `[[0]]`; input
`n > 1` is one quadrant-assembly step applied to the result for `n // 2`;
and the assembly step places `4·M'`, `4·M'+2`, `4·M'+3`, `4·M'+1` as the
top-left, top-right, bottom-left and bottom-right quadrants of the
doubled matrix. -/
theorem C7_bayer_recursion_structure :
    (∀ f : ℕ, bayerFuel (f + 1) 1 = some [[0]]) ∧
    (∀ (f : ℕ) (n : ℤ), 1 < n →
      bayerFuel (f + 1) n = (bayerFuel f (Int.fdiv n 2)).map bayer_step) ∧
    ∀ (M : List (List ℤ)) (s : ℕ), 0 < s → M.length = s →
      (∀ row ∈ M, row.length = s) →
      ∀ y x : ℕ, y < 2 * s → x < 2 * s →
        Mget (bayer_step M) y x 0 =
          4 * Mget M (y % s) (x % s) 0 +
            (if y < s then (if x < s then 0 else 2)
             else (if x < s then 3 else 1)) := by
  refine ⟨fun f => by simp [bayerFuel], fun f n hn => ?_, ?_⟩
  · simp only [bayerFuel, if_neg (by omega : n ≠ 1)]
  · intro M s hs hM hrows y x hy hx
    exact bayer_step_get M s hs hM hrows y x hy hx

theorem C7_bayer_recursion_structure_witness :
    bayerFuel 1 1 = some [[0]] ∧
    bayerFuel 2 (2 : ℤ) = (bayerFuel 1 (Int.fdiv 2 2)).map bayer_step ∧
    Mget (bayer_step [[0]]) 1 1 0 =
      4 * Mget [[0]] (1 % 1) (1 % 1) 0 +
        (if 1 < 1 then (if 1 < 1 then 0 else 2)
         else (if 1 < 1 then 3 else 1)) :=
  ⟨C7_bayer_recursion_structure.1 0,
    C7_bayer_recursion_structure.2.1 1 2 (by decide),
    C7_bayer_recursion_structure.2.2 [[0]] 1 (by decide) (by decide)
      (by decide) 1 1 (by decide) (by decide)⟩

/-- C8: tiling a nonempty `k × k` matrix over a `w × h` canvas produces
an array of shape exactly `(h, w)` whose entry at row `y`, column `x`
equals `M[y mod k][x mod k]` for all `y < h`, `x < w` — so tiling is
aligned to the origin and every `k × k`-aligned block repeats `M`. -/
theorem C8_tile_shape_and_entries {α : Type} (M : List (List α))
    (k h w : ℕ) (d : α) (hk : 0 < k) (hM : M.length = k)
    (hrows : ∀ row ∈ M, row.length = k) :
    (tile_crop M h w k).length = h ∧
    (∀ row ∈ tile_crop M h w k, row.length = w) ∧
    ∀ y x : ℕ, y < h → x < w →
      Mget (tile_crop M h w k) y x d = Mget M (y % k) (x % k) d :=
  ⟨tile_crop_length M h w k hk hM, tile_crop_rows M h w k hk hrows,
    fun y x hy hx => tile_crop_get M h w k d hk hM hrows y x hy hx⟩

theorem C8_tile_shape_and_entries_witness :
    (tile_crop ([[1, 2], [3, 4]] : List (List ℕ)) 3 5 2).length = 3 ∧
    (∀ row ∈ tile_crop ([[1, 2], [3, 4]] : List (List ℕ)) 3 5 2,
      row.length = 5) ∧
    ∀ y x : ℕ, y < 3 → x < 5 →
      Mget (tile_crop ([[1, 2], [3, 4]] : List (List ℕ)) 3 5 2) y x 0 =
        Mget ([[1, 2], [3, 4]] : List (List ℕ)) (y % 2) (x % 2) 0 :=
  C8_tile_shape_and_entries [[1, 2], [3, 4]] 2 3 5 0 (by decide) (by decide)
    (by decide)
